import Mathlib

/-!
CrosswordSolver: index construction and pattern lookup.

A shallow embedding of `CrosswordSolver.cpp`.

* A `std::string` / C string is a `List Char`; characters are ordered by their code,
  which is the order of `char` on the 7-bit range the program is fed.
* A loop of the shape `for (char c = *p; c; c = *++p)` walks the characters in front of
  the first NUL; `cstr` gives that view of a string.
* `std::vector` is a `List`; `vector::at` is `xs[i]?`, where `none` stands for the
  `std::out_of_range` exception that ends the process.  An unchecked read outside the
  table `Order` has no defined result and is `none` as well.
* A read of `*p` behind the terminator of a C string yields a byte that is not part of
  the string: the program reads on, and what it then computes is `none` exactly where it
  depends on that byte.
* The buckets hold shared pointers to immutable `Word`s, so a bucket is a list of `Word`
  values.
-/

namespace CrosswordSolver

/-! ## Data model -/

/-- A string of `char`s. -/
abbrev Str := List Char

/-- The terminator of a C string. -/
def NUL : Char := Char.ofNat 0

/-- The wildcard marker of a pattern. -/
def wildcard : Char := '_'

/-- The characters of a C string: everything in front of the first NUL. -/
def cstr (s : Str) : Str := s.takeWhile (fun c => c ≠ NUL)

/-- The table `Order` (lines 47-52): entry `i` is the rank of the letter `'A' + i`. -/
def Order : List Nat :=
  [3, 20, 12, 10, 1, 16, 17, 8, 5, 23,
   22, 11, 14, 6, 4, 19, 25, 9, 7, 2,
   13, 21, 15, 24, 18, 26]

/-- The struct `Word` (lines 60-68). -/
structure Word where
  original : Str
  compressed : Str
deriving DecidableEq, Repr

/-- One (length, letter) bucket. -/
abbrev Bucket := List Word

/-- The 26 letter buckets of one word length. -/
abbrev LengthBucket := List Bucket

/-- The whole index: 14 length buckets, for the lengths 2..15. -/
abbrev Dictionary := List LengthBucket

/-! ## Compress (lines 73-79) -/

/-- The effect of `std::unique` followed by `erase`: of every run of equal neighbours
one element is kept. -/
def unique : Str → Str
  | [] => []
  | [a] => [a]
  | a :: b :: rest => if a = b then unique (b :: rest) else a :: unique (b :: rest)

/-- The function `Compress`: `std::sort`, then `std::unique` + `erase`. -/
def Compress (word : Str) : Str :=
  unique (word.insertionSort (fun a b => a ≤ b))

/-! ## ReadDictionary (lines 100-152) -/

/-- The index after the two nested set-up loops (lines 105-117): 14 x 26 empty buckets. -/
def emptyDictionary : Dictionary := List.replicate 14 (List.replicate 26 [])

/-- The loop of lines 146-150: `top->at(c - 'A')->push_back(word)` for every character
`c` of the compressed word.  `c - 'A'` is converted to `size_t`, so a character below
`'A'` gives an index far outside the vector and `at` throws, like one above `'Z'`. -/
def fileWord (word : Word) : Str → LengthBucket → Option LengthBucket
  | [], top => some top
  | c :: rest, top =>
    if 65 ≤ c.toNat ∧ c.toNat - 65 < top.length then
      fileWord word rest (List.modify (fun bot => bot ++ [word]) (c.toNat - 65) top)
    else none

/-- The body of the `while` loop (lines 130-150) for one line `w` of the source.
`w.length() - 2` is unsigned: for a line of one character it wraps around and `at`
throws. -/
def readLine (dictionary : Dictionary) (w : Str) : Option Dictionary :=
  if w = [] then some dictionary
  else if 2 ≤ w.length then
    match dictionary[w.length - 2]? with
    | none => none
    | some top =>
      match fileWord ⟨w, Compress w⟩ (cstr (Compress w)) top with
      | none => none
      | some top1 => some (dictionary.set (w.length - 2) top1)
  else none

/-- The `while` loop of lines 128-151 over the lines of the word source. -/
def readLines : List Str → Dictionary → Option Dictionary
  | [], dictionary => some dictionary
  | w :: rest, dictionary =>
    match readLine dictionary w with
    | none => none
    | some d => readLines rest d

/-- The function `ReadDictionary`, run on the empty vector that `main` passes, with the
lines of `english.csv` as `source`. -/
def ReadDictionary (source : List Str) : Option Dictionary :=
  readLines source emptyDictionary

/-! ## GetLowestFrequencyIndex (lines 161-176) -/

/-- The loop of lines 166-173 with its two variables `idx` and `max`, over a table
`order`.  `order[c - 'A']` is an unchecked read. -/
def lowestLoop (order : List Nat) : Str → Nat → Nat → Option Nat
  | [], idx, _ => some idx
  | c :: rest, idx, max =>
    if 65 ≤ c.toNat then
      match order[c.toNat - 65]? with
      | none => none
      | some r =>
        if max < r then lowestLoop order rest ((c.toNat - 65) % 256) r
        else lowestLoop order rest idx max
    else none

/-- The function `GetLowestFrequencyIndex` over an arbitrary rank table. -/
def GetLowestFrequencyIndexWith (order : List Nat) (known : Str) : Option Nat :=
  lowestLoop order (cstr known) 0 0

/-- The function `GetLowestFrequencyIndex`. -/
def GetLowestFrequencyIndex (known : Str) : Option Nat :=
  GetLowestFrequencyIndexWith Order known

/-! ## Lookup (lines 199-248) -/

/-- Line 203: `ks` is a copy of `known` without the wildcards. -/
def stripPositions (known : Str) : Str :=
  (cstr known).filter (fun c => c ≠ wildcard)

/-- Line 209: every occurrence of the character `idx + 'A'` is erased from `ks`. -/
def eraseIndexLetter (idx : Nat) (ks : Str) : Str :=
  ks.filter (fun c => c.toNat ≠ idx + 65)

/-- The first lambda (lines 214-226): every character of `k` is found by `strchr`
in the compressed word. -/
def containsAll (k : Str) (w : Word) : Bool :=
  (cstr k).all (fun c => decide (c ∈ cstr w.compressed))

/-- The loop of the second lambda (lines 233-242).  The second argument is what `p`
points at in the buffer of `original`: `some s` when the characters `s` and then the
terminator are still ahead, `none` once `p` has moved behind the terminator.  There `*p`
is a byte that is not part of the string: for the wildcard the test
`c != *p && c != '_'` is false whatever that byte is and the loop goes on; for any other
character the test depends on the byte and the lambda has no defined result. -/
def matchesAt : Str → Option Str → Option Bool
  | [], _ => some true
  | c :: b, none =>
    if c ≠ wildcard then none else matchesAt b none
  | c :: b, some [] =>
    if c ≠ NUL ∧ c ≠ wildcard then some false else matchesAt b none
  | c :: b, some (x :: p) =>
    if c ≠ x ∧ c ≠ wildcard then some false else matchesAt b (some p)

/-- The second lambda (lines 230-245): the positional test of `known` on a word. -/
def matchesPositions (known : Str) (w : Word) : Option Bool :=
  matchesAt (cstr known) (some w.original)

/-- The algorithm `std::copy_if` with a predicate that may have no defined result. -/
def copy_if (pred : Word → Option Bool) : List Word → Option (List Word)
  | [] => some []
  | w :: rest =>
    match pred w with
    | none => none
    | some b =>
      match copy_if pred rest with
      | none => none
      | some r => some (if b then w :: r else r)

/-- Lines 201-226 of `Lookup` over an arbitrary rank table: the bucket picked by
`GetLowestFrequencyIndex`, filtered by the remaining known letters (the vector
`matches1`). -/
def matches1With (order : List Nat) (dictionary : LengthBucket) (known : Str) :
    Option (List Word) :=
  match GetLowestFrequencyIndexWith order (stripPositions known) with
  | none => none
  | some idx =>
    match dictionary[idx]? with
    | none => none
    | some bucket =>
      some (bucket.filter (containsAll (eraseIndexLetter idx (stripPositions known))))

/-- The function `Lookup` over an arbitrary rank table. -/
def LookupWith (order : List Nat) (dictionary : LengthBucket) (known : Str) :
    Option (List Word) :=
  match matches1With order dictionary known with
  | none => none
  | some m1 => copy_if (matchesPositions known) m1

/-- The vector `matches1` of `Lookup`. -/
def matches1 (dictionary : LengthBucket) (known : Str) : Option (List Word) :=
  matches1With Order dictionary known

/-- The function `Lookup`: `dictionary` is the length bucket that `main` hands over. -/
def Lookup (dictionary : LengthBucket) (known : Str) : Option (List Word) :=
  LookupWith Order dictionary known

/-! ## Vocabulary of the statements -/

/-- An uppercase letter `A`..`Z`. -/
def isUpper (c : Char) : Prop := 65 ≤ c.toNat ∧ c.toNat ≤ 90

instance (c : Char) : Decidable (isUpper c) := by
  unfold isUpper; infer_instance

/-- A word of the word source: uppercase letters only, 2 to 15 of them. -/
def ValidWord (w : Str) : Prop :=
  2 ≤ w.length ∧ w.length ≤ 15 ∧ ∀ c ∈ w, isUpper c

instance (w : Str) : Decidable (ValidWord w) := by
  unfold ValidWord; infer_instance

/-- A word source: every line is empty or a valid word. -/
def ValidSource (source : List Str) : Prop :=
  ∀ w ∈ source, w = [] ∨ ValidWord w

instance (source : List Str) : Decidable (ValidSource source) := by
  unfold ValidSource; infer_instance

/-- Every character of the pattern is a letter or the wildcard. -/
def KnownChars (pattern : Str) : Prop :=
  ∀ c ∈ pattern, isUpper c ∨ c = wildcard

instance (pattern : Str) : Decidable (KnownChars pattern) := by
  unfold KnownChars; infer_instance

/-- A pattern for the length `L`: exactly `L` characters, letters or wildcards. -/
def ValidPattern (L : Nat) (pattern : Str) : Prop :=
  pattern.length = L ∧ KnownChars pattern

instance (L : Nat) (pattern : Str) : Decidable (ValidPattern L pattern) := by
  unfold ValidPattern; infer_instance

/-- The word `w` equals the pattern at every position where the pattern has no
wildcard. -/
def AgreesWith (pattern w : Str) : Prop :=
  ∀ i < pattern.length, pattern[i]? = some wildcard ∨ pattern[i]? = w[i]?

instance (pattern w : Str) : Decidable (AgreesWith pattern w) := by
  unfold AgreesWith; infer_instance

/-- The entry that `ReadDictionary` makes of a line. -/
def entry (w : Str) : Word := ⟨w, Compress w⟩

/-- The source of the scenarios: CAT, CAR, CAB, DOG. -/
def scenario : List Str :=
  [['C', 'A', 'T'], ['C', 'A', 'R'], ['C', 'A', 'B'], ['D', 'O', 'G']]

/-- The index of the source of the scenarios. -/
def scenarioIndex : Dictionary := (ReadDictionary scenario).getD emptyDictionary

/-- A source with a repeated letter, an empty line and a repeated word: LEVEL, an empty
line, EEL, LEVEL. -/
def repeats : List Str :=
  [['L', 'E', 'V', 'E', 'L'], [], ['E', 'E', 'L'], ['L', 'E', 'V', 'E', 'L']]

/-- The data flow of `main` for one query (lines 256, 278, 286, 298-301): the index of
`source` is built, `dictionary->at(length - 2)` picks the bucket of the length `L`
(nothing below 2 has a bucket), `Lookup` runs on it with the upper-cased input
`pattern`, and the originals of the matches are what is printed. -/
def answers (source : List Str) (L : Nat) (pattern : Str) : Option (List Str) :=
  match ReadDictionary source with
  | none => none
  | some dictionary =>
    if 2 ≤ L then
      match dictionary[L - 2]? with
      | none => none
      | some top =>
        match Lookup top pattern with
        | none => none
        | some result => some (result.map Word.original)
    else none

/-- The rank that a table gives to the letter of index `i` (0 outside the table). -/
def rank (order : List Nat) (i : Nat) : Nat := order[i]?.getD 0

/-! ## The query step of main (lines 261-302) -/

/-- How one pass of the `while (true)` loop of `main` ends. -/
inductive Outcome where
  | invalidNumberOfLetters
  | outOfRange
  | undefinedRead
  | noKnownWords
  | possibleAnswers (words : List Str)
deriving DecidableEq, Repr

/-- The condition of line 270, `length <= 1 && length > 15`. -/
def invalidLength (length : Int) : Bool :=
  decide (length ≤ 1) && decide (length > 15)

/-- A value of `int` arithmetic, kept in the 32 bits of an `int`. -/
def wrapInt (x : Int) : Int :=
  (x + 2147483648) % 4294967296 - 2147483648

/-- Line 278, `dictionary->at(length - 2)`: the difference is an `int`, and `at` takes it
as a `size_t`, so a negative difference is an index above every vector size and `at`
throws, as it does for a difference of 14 or more. -/
def bucketAt (dictionary : Dictionary) (length : Int) : Option LengthBucket :=
  if 0 ≤ wrapInt (length - 2) then dictionary[(wrapInt (length - 2)).toNat]? else none

/-- The function `toupper` of line 283, on the basic Latin letters. -/
def toupper (c : Char) : Char := c.toUpper

/-- Lines 288-302: what `main` prints for the vector that `Lookup` returned. -/
def report : Option (List Word) → Outcome
  | none => Outcome.undefinedRead
  | some results =>
    if results.isEmpty then Outcome.noKnownWords
    else Outcome.possibleAnswers (results.map Word.original)

/-- One pass of the loop of `main` (lines 261-302) for the number `length` read from the
first input line and the second input line `input`, with the call of line 286 going to
`lookup`. -/
def queryStepWith (lookup : LengthBucket → Str → Option (List Word))
    (dictionary : Dictionary) (length : Int) (input : Str) : Outcome :=
  if invalidLength length then Outcome.invalidNumberOfLetters
  else
    match bucketAt dictionary length with
    | none => Outcome.outOfRange
    | some ptr => report (lookup ptr (input.map toupper))

/-- One pass of the loop of `main`, calling `Lookup`. -/
def queryStep (dictionary : Dictionary) (length : Int) (input : Str) : Outcome :=
  queryStepWith Lookup dictionary length input

/-- The index holds exactly the lines `pre`: 14 length buckets of 26 letter buckets, the
bucket of a length `n` and a letter `X` listing, in order, the entries of the lines of
length `n` in which `X` occurs. -/
def Filed (d : Dictionary) (pre : List Str) : Prop :=
  d.length = 14 ∧ ∀ n, 2 ≤ n → n ≤ 15 → ∃ top, d[n - 2]? = some top ∧ top.length = 26 ∧
    ∀ X, isUpper X →
      top[X.toNat - 65]? = some ((pre.filter (fun w => decide (w.length = n ∧ X ∈ w))).map entry)


/-! ## Lemmas on Compress -/

theorem mem_unique (c : Char) : ∀ l : Str, c ∈ unique l ↔ c ∈ l
  | [] => by simp [unique]
  | [a] => by simp [unique]
  | a :: b :: rest => by
    have ih := mem_unique c (b :: rest)
    by_cases h : a = b
    · subst h
      simp only [unique, if_true, ih]
      simp
    · simp only [unique, h, if_false, List.mem_cons, ih]

theorem unique_head_le (a : Char) : ∀ l : Str, (∀ x ∈ l, a ≤ x) → ∀ x ∈ unique l, a ≤ x :=
  fun l h x hx => h x ((mem_unique x l).1 hx)

theorem unique_strict : ∀ l : Str, List.Pairwise (fun a b => a ≤ b) l →
    List.Pairwise (fun a b => a < b) (unique l)
  | [] => by simp [unique]
  | [a] => by simp [unique]
  | a :: b :: rest => by
    intro h
    have htail : List.Pairwise (fun a b => a ≤ b) (b :: rest) := (List.pairwise_cons.1 h).2
    have ih := unique_strict (b :: rest) htail
    by_cases hab : a = b
    · simp only [unique, hab, if_true]
      exact ih
    · simp only [unique, hab, if_false]
      refine List.pairwise_cons.2 ⟨?_, ih⟩
      intro x hx
      have hx1 : x ∈ b :: rest := (mem_unique x _).1 hx
      have hax : a ≤ x := (List.pairwise_cons.1 h).1 x hx1
      have hbx : b ≤ x := by
        rcases List.mem_cons.1 hx1 with h1 | h1
        · exact h1 ▸ le_refl _
        · exact (List.pairwise_cons.1 htail).1 x h1
      have hab1 : a ≤ b := (List.pairwise_cons.1 h).1 b (List.mem_cons_self _ _)
      exact lt_of_lt_of_le (lt_of_le_of_ne hab1 hab) hbx

theorem Compress_strict (w : Str) : List.Pairwise (fun a b => a < b) (Compress w) :=
  unique_strict _ (List.sorted_insertionSort (fun a b : Char => a ≤ b) w)

theorem mem_Compress (c : Char) (w : Str) : c ∈ Compress w ↔ c ∈ w := by
  unfold Compress
  rw [mem_unique]
  exact (List.perm_insertionSort (fun a b : Char => a ≤ b) w).mem_iff

theorem strict_ext {u v : Str} (hu : List.Pairwise (fun a b => a < b) u)
    (hv : List.Pairwise (fun a b => a < b) v) (h : ∀ c, c ∈ u ↔ c ∈ v) : u = v := by
  have hnu : u.Nodup := hu.imp (fun hab => ne_of_lt hab)
  have hnv : v.Nodup := hv.imp (fun hab => ne_of_lt hab)
  have hp : u.Perm v := (List.perm_ext_iff_of_nodup hnu hnv).2 h
  exact List.eq_of_perm_of_sorted hp hu hv

theorem Compress_nodup (w : Str) : (Compress w).Nodup :=
  (Compress_strict w).imp (fun hab => ne_of_lt hab)

/-- C7: `Compress w` is strictly ascending, and a character occurs in it exactly when it
occurs in `w`. -/
theorem Compress_sorted_distinct_same_letters (w : Str) :
    List.Pairwise (fun a b => a < b) (Compress w) ∧ ∀ c, c ∈ Compress w ↔ c ∈ w :=
  ⟨Compress_strict w, fun c => mem_Compress c w⟩

/-- C8: two strings have the same signature exactly when the same characters occur in
them, whatever their order and number of occurrences. -/
theorem Compress_eq_iff_same_letters (u v : Str) :
    Compress u = Compress v ↔ ∀ c, c ∈ u ↔ c ∈ v := by
  constructor
  · intro h c
    rw [← mem_Compress c u, ← mem_Compress c v, h]
  · intro h
    apply strict_ext (Compress_strict u) (Compress_strict v)
    intro c
    rw [mem_Compress, mem_Compress]
    exact h c

/-- C9: signature idempotence, `Compress (Compress w) = Compress w`. -/
theorem Compress_idempotent (w : Str) : Compress (Compress w) = Compress w := by
  apply strict_ext (Compress_strict _) (Compress_strict w)
  intro c
  rw [mem_Compress]


/-! ## Lemmas on C strings and letters -/

theorem toNat_NUL : NUL.toNat = 0 := by decide

theorem isUpper_ne_NUL {c : Char} (h : isUpper c) : c ≠ NUL := by
  intro hc
  have h1 : 65 ≤ c.toNat := h.1
  rw [hc, toNat_NUL] at h1
  omega

theorem cstr_eq_self {s : Str} (h : ∀ c ∈ s, c ≠ NUL) : cstr s = s := by
  unfold cstr
  rw [List.takeWhile_eq_self_iff]
  intro x hx
  simpa using h x hx

theorem toNat_eq {a b : Char} (h : a.toNat = b.toNat) : a = b := by
  rw [← Char.ofNat_toNat a, ← Char.ofNat_toNat b, h]

theorem letterIndex_eq {a b : Char} (ha : isUpper a) (hb : isUpper b)
    (h : a.toNat - 65 = b.toNat - 65) : a = b := by
  apply toNat_eq
  have h1 := ha.1
  have h2 := hb.1
  omega

theorem cstr_Compress {w : Str} (h : ∀ c ∈ w, isUpper c) : cstr (Compress w) = Compress w :=
  cstr_eq_self (fun c hc => isUpper_ne_NUL (h c ((mem_Compress c w).1 hc)))

/-! ## Lemmas on ReadDictionary -/

theorem fileWord_spec (word : Word) : ∀ (cs : Str) (top : LengthBucket),
    top.length = 26 → (∀ c ∈ cs, isUpper c) → cs.Nodup →
    ∃ top1, fileWord word cs top = some top1 ∧ top1.length = 26 ∧
      ∀ X, isUpper X → ∀ b, top[X.toNat - 65]? = some b →
        top1[X.toNat - 65]? = some (b ++ if X ∈ cs then [word] else [])
  | [], top, hlen, _, _ => by
    refine ⟨top, rfl, hlen, ?_⟩
    intro X _ b hb
    simp [hb]
  | c :: rest, top, hlen, hup, hnd => by
    have hc : isUpper c := hup c (List.mem_cons_self _ _)
    have hidx : 65 ≤ c.toNat ∧ c.toNat - 65 < top.length := by
      have h1 := hc.1
      have h2 := hc.2
      rw [hlen]
      omega
    have hlen1 : (List.modify (fun bot => bot ++ [word]) (c.toNat - 65) top).length = 26 := by
      rw [List.length_modify]; exact hlen
    obtain ⟨top1, h1, h2, h3⟩ := fileWord_spec word rest _ hlen1
      (fun x hx => hup x (List.mem_cons_of_mem _ hx)) (List.nodup_cons.1 hnd).2
    refine ⟨top1, ?_, h2, ?_⟩
    · simp only [fileWord, hidx, and_self, if_true]
      exact h1
    · intro X hX b hb
      by_cases hXc : X = c
      · subst hXc
        have hnot : X ∉ rest := (List.nodup_cons.1 hnd).1
        have := h3 X hX (b ++ [word]) (by rw [List.getElem?_modify, hb]; simp)
        rw [this]
        simp [hnot]
      · have hne : c.toNat - 65 ≠ X.toNat - 65 := fun h => hXc (letterIndex_eq hc hX h).symm
        have := h3 X hX b (by rw [List.getElem?_modify, hb]; simp [hne])
        rw [this]
        have : (X ∈ c :: rest) ↔ X ∈ rest := by simp [hXc]
        simp only [this]

theorem Filed_empty : Filed emptyDictionary [] := by
  refine ⟨by simp [emptyDictionary], ?_⟩
  intro n h2 h15
  refine ⟨List.replicate 26 [], ?_, by simp, ?_⟩
  · unfold emptyDictionary
    rw [List.getElem?_replicate_of_lt (by omega)]
  · intro X hX
    have h1 := hX.1
    have h2 := hX.2
    rw [List.getElem?_replicate_of_lt (by omega)]
    simp

theorem readLine_Filed {d : Dictionary} {pre : List Str} {w : Str} (hd : Filed d pre)
    (hw : w = [] ∨ ValidWord w) : ∃ d1, readLine d w = some d1 ∧ Filed d1 (pre ++ [w]) := by
  by_cases hnil : w = []
  · subst hnil
    refine ⟨d, by simp [readLine], hd.1, ?_⟩
    intro n h2 h15
    obtain ⟨top, ht1, ht2, ht3⟩ := hd.2 n h2 h15
    refine ⟨top, ht1, ht2, ?_⟩
    intro X hX
    rw [ht3 X hX, List.filter_append]
    have : ¬ (0 = n) := by omega
    simp [this]
  · have hv : ValidWord w := hw.resolve_left hnil
    obtain ⟨hl2, hl15, hup⟩ := hv
    obtain ⟨top, ht1, ht2, ht3⟩ := hd.2 w.length hl2 hl15
    obtain ⟨top1, hf1, hf2, hf3⟩ := fileWord_spec (entry w) (Compress w) top ht2
      (fun c hc => hup c ((mem_Compress c w).1 hc)) (Compress_nodup w)
    refine ⟨d.set (w.length - 2) top1, ?_, ?_, ?_⟩
    · simp only [readLine, hnil, if_false, hl2, if_true, ht1, cstr_Compress hup]
      have : fileWord ⟨w, Compress w⟩ (Compress w) top = some top1 := hf1
      rw [this]
    · rw [List.length_set]; exact hd.1
    · intro n h2 h15
      by_cases hn : n = w.length
      · subst hn
        refine ⟨top1, ?_, hf2, ?_⟩
        · rw [List.getElem?_set]
          have : w.length - 2 < d.length := by rw [hd.1]; omega
          simp [this]
        · intro X hX
          rw [hf3 X hX _ (ht3 X hX), List.filter_append, List.map_append]
          have hiff := mem_Compress X w
          by_cases hXw : X ∈ w
          · simp [hXw, hiff]
          · simp [hXw, hiff]
      · obtain ⟨topn, hn1, hn2, hn3⟩ := hd.2 n h2 h15
        refine ⟨topn, ?_, hn2, ?_⟩
        · rw [List.getElem?_set]
          have : ¬ (w.length - 2 = n - 2) := by omega
          simp [this, hn1]
        · intro X hX
          rw [hn3 X hX, List.filter_append]
          have : ¬ (w.length = n) := fun h => hn h.symm
          simp [this]

theorem readLines_Filed : ∀ (rest : List Str) (d : Dictionary) (pre : List Str),
    Filed d pre → ValidSource rest →
    ∃ d1, readLines rest d = some d1 ∧ Filed d1 (pre ++ rest)
  | [], d, pre, hd, _ => ⟨d, rfl, by simpa using hd⟩
  | w :: rest, d, pre, hd, hv => by
    obtain ⟨d1, h1, h2⟩ := readLine_Filed hd (hv w (List.mem_cons_self _ _))
    obtain ⟨d2, h3, h4⟩ := readLines_Filed rest d1 (pre ++ [w]) h2
      (fun x hx => hv x (List.mem_cons_of_mem _ hx))
    refine ⟨d2, ?_, by simpa using h4⟩
    simp only [readLines, h1]
    exact h3

theorem ReadDictionary_Filed {source : List Str} (h : ValidSource source) :
    ∃ d, ReadDictionary source = some d ∧ Filed d source := by
  simpa [ReadDictionary] using readLines_Filed source emptyDictionary [] Filed_empty h

/-- C2: on a source of uppercase words of 2 to 15 letters (and empty lines),
`ReadDictionary` completes, and the bucket of a length `n` and a letter `X` is the list of
the entries of the source words of length `n` in which `X` occurs, in source order, one
entry per source line, each with `compressed = Compress original`. -/
theorem ReadDictionary_buckets (source : List Str) (hsrc : ValidSource source) :
    ∃ dictionary, ReadDictionary source = some dictionary ∧
      ∀ n, 2 ≤ n → n ≤ 15 → ∀ X, isUpper X →
        ∃ top bucket, dictionary[n - 2]? = some top ∧ top[X.toNat - 65]? = some bucket ∧
          bucket.map Word.original = source.filter (fun w => decide (w.length = n ∧ X ∈ w)) ∧
          (∀ e ∈ bucket, e.compressed = Compress e.original) := by
  obtain ⟨d, hd1, hd2⟩ := ReadDictionary_Filed hsrc
  refine ⟨d, hd1, ?_⟩
  intro n h2 h15 X hX
  obtain ⟨top, ht1, _, ht3⟩ := hd2.2 n h2 h15
  refine ⟨top, _, ht1, ht3 X hX, ?_, ?_⟩
  · rw [List.map_map]
    have : (Word.original ∘ entry) = id := by funext w; rfl
    rw [this, List.map_id]
  · intro e he
    obtain ⟨w, _, rfl⟩ := List.mem_map.1 he
    rfl


/-- Instance: the source LEVEL, empty line, EEL, LEVEL. -/
theorem ReadDictionary_buckets_witness :
    ValidSource repeats ∧
    ∃ dictionary, ReadDictionary repeats = some dictionary ∧
      ∀ n, 2 ≤ n → n ≤ 15 → ∀ X, isUpper X →
        ∃ top bucket, dictionary[n - 2]? = some top ∧ top[X.toNat - 65]? = some bucket ∧
          bucket.map Word.original = repeats.filter (fun w => decide (w.length = n ∧ X ∈ w)) ∧
          (∀ e ∈ bucket, e.compressed = Compress e.original) :=
  ⟨by decide, ReadDictionary_buckets repeats (by decide)⟩

/-! ## Lemmas on GetLowestFrequencyIndex -/

theorem lowestLoop_some (order : List Nat) (hlen : order.length = 26) :
    ∀ (cs : Str) (idx max : Nat), (∀ c ∈ cs, isUpper c) →
    ∃ i, lowestLoop order cs idx max = some i ∧ (i = idx ∨ ∃ c ∈ cs, i = c.toNat - 65)
  | [], idx, _, _ => ⟨idx, rfl, Or.inl rfl⟩
  | c :: rest, idx, max, hup => by
    have hc : isUpper c := hup c (List.mem_cons_self _ _)
    have h1 := hc.1
    have h2 := hc.2
    have hrest : ∀ x ∈ rest, isUpper x := fun x hx => hup x (List.mem_cons_of_mem _ hx)
    have hlt : c.toNat - 65 < order.length := by omega
    have hget : order[c.toNat - 65]? = some (order[c.toNat - 65]) := List.getElem?_eq_getElem hlt
    by_cases hmax : max < order[c.toNat - 65]
    · obtain ⟨i, hi1, hi2⟩ := lowestLoop_some order hlen rest ((c.toNat - 65) % 256)
        (order[c.toNat - 65]) hrest
      refine ⟨i, ?_, ?_⟩
      · simp only [lowestLoop, h1, if_true, hget, hmax]
        exact hi1
      · right
        rcases hi2 with h | ⟨x, hx, h⟩
        · exact ⟨c, List.mem_cons_self _ _, by omega⟩
        · exact ⟨x, List.mem_cons_of_mem _ hx, h⟩
    · obtain ⟨i, hi1, hi2⟩ := lowestLoop_some order hlen rest idx max hrest
      refine ⟨i, ?_, ?_⟩
      · simp only [lowestLoop, h1, if_true, hget, hmax, if_false]
        exact hi1
      · rcases hi2 with h | ⟨x, hx, h⟩
        · exact Or.inl h
        · exact Or.inr ⟨x, List.mem_cons_of_mem _ hx, h⟩

theorem lowestLoop_letter (order : List Nat) (hlen : order.length = 26)
    (hpos : ∀ r ∈ order, 1 ≤ r) (cs : Str) (idx : Nat) (hne : cs ≠ [])
    (hup : ∀ c ∈ cs, isUpper c) :
    ∃ c ∈ cs, lowestLoop order cs idx 0 = some (c.toNat - 65) := by
  cases cs with
  | nil => exact absurd rfl hne
  | cons c rest =>
    have hc : isUpper c := hup c (List.mem_cons_self _ _)
    have h1 := hc.1
    have h2 := hc.2
    have hrest : ∀ x ∈ rest, isUpper x := fun x hx => hup x (List.mem_cons_of_mem _ hx)
    have hlt : c.toNat - 65 < order.length := by omega
    have hget : order[c.toNat - 65]? = some (order[c.toNat - 65]) := List.getElem?_eq_getElem hlt
    have hmax : 0 < order[c.toNat - 65] := hpos _ (List.getElem_mem _)
    obtain ⟨i, hi1, hi2⟩ := lowestLoop_some order hlen rest ((c.toNat - 65) % 256)
      (order[c.toNat - 65]) hrest
    have hrun : lowestLoop order (c :: rest) idx 0 = some i := by
      simp only [lowestLoop, h1, if_true, hget, hmax]
      exact hi1
    rcases hi2 with h | ⟨x, hx, h⟩
    · refine ⟨c, List.mem_cons_self _ _, ?_⟩
      rw [hrun, h]
      congr 1
      omega
    · exact ⟨x, List.mem_cons_of_mem _ hx, by rw [hrun, h]⟩

theorem Order_length : Order.length = 26 := by decide

theorem Order_pos : ∀ r ∈ Order, 1 ≤ r := by decide

/-! ## Lemmas on the two filters of Lookup -/

theorem wildcard_ne_NUL : wildcard ≠ NUL := by decide

theorem not_isUpper_wildcard : ¬ isUpper wildcard := by decide

theorem cstr_pattern {pattern : Str} (hp : KnownChars pattern) :
    cstr pattern = pattern := by
  apply cstr_eq_self
  intro c hc
  rcases hp c hc with h | h
  · exact isUpper_ne_NUL h
  · rw [h]; exact wildcard_ne_NUL

theorem mem_stripPositions {pattern : Str} (hp : KnownChars pattern) (c : Char) :
    c ∈ stripPositions pattern ↔ c ∈ pattern ∧ c ≠ wildcard := by
  unfold stripPositions
  rw [cstr_pattern hp]
  simp

theorem stripPositions_upper {pattern : Str} (hp : KnownChars pattern) :
    ∀ c ∈ stripPositions pattern, isUpper c := by
  intro c hc
  obtain ⟨h1, h2⟩ := (mem_stripPositions hp c).1 hc
  exact (hp c h1).resolve_right h2

theorem containsAll_entry {k w : Str} (hk : ∀ c ∈ k, isUpper c) (hw : ∀ c ∈ w, isUpper c) :
    containsAll k (entry w) = true ↔ ∀ c ∈ k, c ∈ w := by
  unfold containsAll
  rw [cstr_eq_self (fun c hc => isUpper_ne_NUL (hk c hc))]
  have : cstr (entry w).compressed = Compress w := cstr_Compress hw
  rw [this, List.all_eq_true]
  constructor
  · intro h c hc
    exact (mem_Compress c w).1 (by simpa using h c hc)
  · intro h c hc
    simpa using (mem_Compress c w).2 (h c hc)

theorem AgreesWith_nil (w : Str) : AgreesWith [] w := by
  intro i hi
  simp at hi

theorem AgreesWith_cons (c x : Char) (b p : Str) :
    AgreesWith (c :: b) (x :: p) ↔ (c = wildcard ∨ c = x) ∧ AgreesWith b p := by
  unfold AgreesWith
  constructor
  · intro h
    refine ⟨by simpa using h 0 (by simp), ?_⟩
    intro i hi
    simpa using h (i + 1) (by simpa using hi)
  · rintro ⟨h0, h⟩ i hi
    cases i with
    | zero => simpa using h0
    | succ j => simpa using h j (by simpa using hi)

theorem matchesAt_agrees : ∀ (pat w : Str), pat.length ≤ w.length →
    matchesAt pat (some w) = some (decide (AgreesWith pat w))
  | [], w, _ => by simp [matchesAt, AgreesWith_nil]
  | c :: b, [], h => by simp at h
  | c :: b, x :: p, h => by
    have ih := matchesAt_agrees b p (by simpa using h)
    by_cases hm : c ≠ x ∧ c ≠ wildcard
    · have : ¬ AgreesWith (c :: b) (x :: p) := by
        rw [AgreesWith_cons]
        rintro ⟨h1 | h1, _⟩
        · exact hm.2 h1
        · exact hm.1 h1
      simp only [matchesAt, this, decide_False]
      rw [if_pos hm]
    · have hor : c = wildcard ∨ c = x := by
        by_cases h1 : c = x
        · exact Or.inr h1
        · by_cases h2 : c = wildcard
          · exact Or.inl h2
          · exact absurd ⟨h1, h2⟩ hm
      simp only [matchesAt, AgreesWith_cons, hor, true_and]
      rw [if_neg hm, ih]

theorem AgreesWith_mem {pattern w : Str} (h : AgreesWith pattern w) {c : Char}
    (hc : c ∈ pattern) (hw : c ≠ wildcard) : c ∈ w := by
  obtain ⟨i, hi, rfl⟩ := List.getElem_of_mem hc
  have h1 : pattern[i]? = some pattern[i] := List.getElem?_eq_getElem hi
  rcases h i hi with h2 | h2
  · rw [h1] at h2
    exact absurd (Option.some.inj h2) hw
  · rw [h1] at h2
    exact List.mem_iff_getElem?.2 ⟨i, h2.symm⟩

theorem copy_if_filter (pred : Word → Option Bool) (q : Word → Bool) :
    ∀ l : List Word, (∀ e ∈ l, pred e = some (q e)) → copy_if pred l = some (l.filter q)
  | [], _ => rfl
  | e :: rest, h => by
    have ih := copy_if_filter pred q rest (fun x hx => h x (List.mem_cons_of_mem _ hx))
    have he := h e (List.mem_cons_self _ _)
    simp only [copy_if, he, ih, List.filter_cons]


/-! ## Lookup on the index of a valid source -/

theorem Filed_upper {source : List Str} (hsrc : ValidSource source) {w : Str} (hw : w ∈ source)
    {L : Nat} (h2 : 2 ≤ L) (hl : w.length = L) : ∀ c ∈ w, isUpper c := by
  rcases hsrc w hw with h | h
  · rw [h] at hl
    simp at hl
    omega
  · exact h.2.2

theorem mem_eraseIndexLetter {i : Nat} {ks : Str} {c : Char} (h : c ∈ eraseIndexLetter i ks) :
    c ∈ ks := by
  unfold eraseIndexLetter at h
  exact (List.mem_filter.1 h).1

theorem filter_entry_filter (source : List Str) (p : Str → Bool) (q : Word → Bool)
    (r : Str → Bool) (h : ∀ w ∈ source, (q (entry w) && p w) = r w) :
    ((source.filter p).map entry).filter q = (source.filter r).map entry := by
  rw [List.filter_map, List.filter_filter]
  congr 1
  apply List.filter_congr
  intro w hw
  exact h w hw

theorem matches1With_Filed (order : List Nat) (hlen : order.length = 26) {d : Dictionary}
    {source : List Str} (hsrc : ValidSource source) (hd : Filed d source) {L : Nat}
    (h2 : 2 ≤ L) (h15 : L ≤ 15) {pattern : Str} (hp : KnownChars pattern) :
    ∃ top X, d[L - 2]? = some top ∧ isUpper X ∧
      GetLowestFrequencyIndexWith order (stripPositions pattern) = some (X.toNat - 65) ∧
      (X.toNat - 65 = 0 ∨ X ∈ stripPositions pattern) ∧
      top[X.toNat - 65]? =
        some ((source.filter (fun w => decide (w.length = L ∧ X ∈ w))).map entry) ∧
      matches1With order top pattern =
        some ((source.filter (fun w => decide (w.length = L ∧ X ∈ w ∧
          ∀ c ∈ eraseIndexLetter (X.toNat - 65) (stripPositions pattern), c ∈ w))).map entry) := by
  obtain ⟨top, ht1, _, ht3⟩ := hd.2 L h2 h15
  have hks := stripPositions_upper hp
  obtain ⟨i, hi1, hi2⟩ := lowestLoop_some order hlen (stripPositions pattern) 0 0 hks
  have hX : ∃ X, isUpper X ∧ i = X.toNat - 65 ∧
      (X.toNat - 65 = 0 ∨ X ∈ stripPositions pattern) := by
    rcases hi2 with h | ⟨c, hc, h⟩
    · exact ⟨'A', by decide, by rw [h]; decide, Or.inl (by decide)⟩
    · exact ⟨c, hks c hc, h, Or.inr hc⟩
  obtain ⟨X, hXup, hiX, hXin⟩ := hX
  subst hiX
  have hidx : GetLowestFrequencyIndexWith order (stripPositions pattern) =
      some (X.toNat - 65) := by
    unfold GetLowestFrequencyIndexWith
    rw [cstr_eq_self (fun c hc => isUpper_ne_NUL (hks c hc))]
    exact hi1
  refine ⟨top, X, ht1, hXup, hidx, hXin, ht3 X hXup, ?_⟩
  simp only [matches1With, hidx, ht3 X hXup]
  congr 1
  apply filter_entry_filter
  intro w hw
  by_cases hl : w.length = L
  · have hup := Filed_upper hsrc hw h2 hl
    have hk : ∀ c ∈ eraseIndexLetter (X.toNat - 65) (stripPositions pattern), isUpper c :=
      fun c hc => hks c (mem_eraseIndexLetter hc)
    rw [Bool.eq_iff_iff, Bool.and_eq_true, containsAll_entry hk hup]
    simp only [decide_eq_true_eq]
    tauto
  · simp [hl]

theorem LookupWith_Filed (order : List Nat) (hlen : order.length = 26) {d : Dictionary}
    {source : List Str} (hsrc : ValidSource source) (hd : Filed d source) {L : Nat}
    (h2 : 2 ≤ L) (h15 : L ≤ 15) {pattern : Str} (hp : KnownChars pattern)
    (hshort : pattern.length ≤ L) :
    ∃ top X, d[L - 2]? = some top ∧ isUpper X ∧
      GetLowestFrequencyIndexWith order (stripPositions pattern) = some (X.toNat - 65) ∧
      (X.toNat - 65 = 0 ∨ X ∈ stripPositions pattern) ∧
      top[X.toNat - 65]? =
        some ((source.filter (fun w => decide (w.length = L ∧ X ∈ w))).map entry) ∧
      LookupWith order top pattern =
        some ((source.filter (fun w => decide (w.length = L ∧ X ∈ w ∧
          AgreesWith pattern w))).map entry) := by
  obtain ⟨top, X, ht1, hXup, hidx, hXin, hb, hm1⟩ :=
    matches1With_Filed order hlen hsrc hd h2 h15 hp
  refine ⟨top, X, ht1, hXup, hidx, hXin, hb, ?_⟩
  simp only [LookupWith, hm1]
  rw [copy_if_filter (matchesPositions pattern)
    (fun e => decide (AgreesWith pattern e.original))]
  · congr 1
    apply filter_entry_filter
    intro w hw
    rw [Bool.eq_iff_iff, Bool.and_eq_true]
    simp only [decide_eq_true_eq]
    constructor
    · rintro ⟨ha, hl, hx, _⟩
      exact ⟨hl, hx, ha⟩
    · rintro ⟨hl, hx, ha⟩
      refine ⟨ha, hl, hx, ?_⟩
      intro c hc
      have hc1 := (mem_stripPositions hp c).1 (mem_eraseIndexLetter hc)
      exact AgreesWith_mem ha hc1.1 hc1.2
  · intro e he
    obtain ⟨w, hw, rfl⟩ := List.mem_map.1 he
    have hw1 := List.mem_filter.1 hw
    have hl : w.length = L := (of_decide_eq_true hw1.2).1
    unfold matchesPositions
    rw [cstr_pattern hp]
    exact matchesAt_agrees pattern w (by rw [hl]; exact hshort)

theorem index_letter (order : List Nat) (hlen : order.length = 26)
    (hpos : ∀ r ∈ order, 1 ≤ r) {pattern : Str} (hp : KnownChars pattern)
    (hletter : ∃ c ∈ pattern, c ≠ wildcard) {X : Char} (hX : isUpper X)
    (hidx : GetLowestFrequencyIndexWith order (stripPositions pattern) = some (X.toNat - 65)) :
    X ∈ pattern ∧ X ≠ wildcard := by
  have hks := stripPositions_upper hp
  have hne : stripPositions pattern ≠ [] := by
    obtain ⟨c, hc1, hc2⟩ := hletter
    exact List.ne_nil_of_mem ((mem_stripPositions hp c).2 ⟨hc1, hc2⟩)
  obtain ⟨c, hc, hrun⟩ := lowestLoop_letter order hlen hpos (stripPositions pattern) 0 hne hks
  have hXc : X = c := by
    unfold GetLowestFrequencyIndexWith at hidx
    rw [cstr_eq_self (fun c hc => isUpper_ne_NUL (hks c hc)), hrun] at hidx
    exact (letterIndex_eq (hks c hc) hX (Option.some.inj hidx)).symm
  exact (mem_stripPositions hp X).1 (hXc ▸ hc)

theorem LookupWith_letter (order : List Nat) (hlen : order.length = 26)
    (hpos : ∀ r ∈ order, 1 ≤ r) {d : Dictionary} {source : List Str}
    (hsrc : ValidSource source) (hd : Filed d source) {L : Nat} (h2 : 2 ≤ L) (h15 : L ≤ 15)
    {pattern : Str} (hp : KnownChars pattern) (hshort : pattern.length ≤ L)
    (hletter : ∃ c ∈ pattern, c ≠ wildcard) :
    ∃ top, d[L - 2]? = some top ∧
      LookupWith order top pattern =
        some ((source.filter (fun w => decide (w.length = L ∧ AgreesWith pattern w))).map entry) := by
  obtain ⟨top, X, ht, hX, hidx, _, _, hres⟩ :=
    LookupWith_Filed order hlen hsrc hd h2 h15 hp hshort
  have hXp := index_letter order hlen hpos hp hletter hX hidx
  refine ⟨top, ht, ?_⟩
  rw [hres]
  congr 2
  apply List.filter_congr
  intro w _
  rw [Bool.eq_iff_iff]
  simp only [decide_eq_true_eq]
  constructor
  · rintro ⟨hl, _, ha⟩
    exact ⟨hl, ha⟩
  · rintro ⟨hl, ha⟩
    exact ⟨hl, AgreesWith_mem ha hXp.1 hXp.2, ha⟩

/-- Outside the case of a pattern without a letter, the positional guarantee holds: a
pattern made from a source word `W` by replacing some positions, not all, with the
wildcard returns `W`. -/
theorem Lookup_retains_word (source : List Str) (hsrc : ValidSource source) (W : Str)
    (hW : W ∈ source) (hWv : ValidWord W) (pattern : Str) (hlen : pattern.length = W.length)
    (hag : AgreesWith pattern W) (hletter : ∃ c ∈ pattern, c ≠ wildcard) :
    ∃ dictionary top result, ReadDictionary source = some dictionary ∧
      dictionary[W.length - 2]? = some top ∧ Lookup top pattern = some result ∧
      entry W ∈ result := by
  have hp : KnownChars pattern := by
    intro c hc
    by_cases hcw : c = wildcard
    · exact Or.inr hcw
    · exact Or.inl (hWv.2.2 c (AgreesWith_mem hag hc hcw))
  obtain ⟨d, hd1, hd2⟩ := ReadDictionary_Filed hsrc
  obtain ⟨top, ht, hres⟩ := LookupWith_letter Order Order_length Order_pos hsrc hd2
    hWv.1 hWv.2.1 hp (le_of_eq hlen) hletter
  refine ⟨d, top, _, hd1, ht, hres, ?_⟩
  apply List.mem_map_of_mem
  rw [List.mem_filter]
  exact ⟨hW, decide_eq_true ⟨rfl, hag⟩⟩

/-- Outside the case of an empty set of known letters, the containment guarantee holds:
with a non-empty list `ks` of letters of a source word `W` as known letters, `matches1`
retains `W`. -/
theorem matches1_retains_word (source : List Str) (hsrc : ValidSource source) (W : Str)
    (hW : W ∈ source) (hWv : ValidWord W) (ks : Str) (hne : ks ≠ [])
    (hsub : ∀ c ∈ ks, c ∈ W) :
    ∃ dictionary top m1, ReadDictionary source = some dictionary ∧
      dictionary[W.length - 2]? = some top ∧ matches1 top ks = some m1 ∧ entry W ∈ m1 := by
  have hp : KnownChars ks := fun c hc => Or.inl (hWv.2.2 c (hsub c hc))
  have hletter : ∃ c ∈ ks, c ≠ wildcard := by
    obtain ⟨c, hc⟩ := List.exists_mem_of_ne_nil ks hne
    refine ⟨c, hc, ?_⟩
    intro h
    exact not_isUpper_wildcard (h ▸ hWv.2.2 c (hsub c hc))
  obtain ⟨d, hd1, hd2⟩ := ReadDictionary_Filed hsrc
  obtain ⟨top, X, ht, hX, hidx, _, _, hm1⟩ :=
    matches1With_Filed Order Order_length hsrc hd2 hWv.1 hWv.2.1 hp
  have hXp := index_letter Order Order_length Order_pos hp hletter hX hidx
  refine ⟨d, top, _, hd1, ht, hm1, ?_⟩
  apply List.mem_map_of_mem
  rw [List.mem_filter]
  refine ⟨hW, decide_eq_true ⟨rfl, hsub X hXp.1, ?_⟩⟩
  intro c hc
  exact hsub c ((mem_stripPositions hp c).1 (mem_eraseIndexLetter hc)).1

theorem readLine_length {d d1 : Dictionary} {w : Str} (h : readLine d w = some d1) :
    d1.length = d.length := by
  unfold readLine at h
  split at h
  · rw [← Option.some.inj h]
  · split at h
    · split at h
      · exact absurd h (by simp)
      · split at h
        · exact absurd h (by simp)
        · rw [← Option.some.inj h, List.length_set]
    · exact absurd h (by simp)

theorem readLine_out_of_range {d : Dictionary} {w : Str} (hd : d.length = 14)
    (hw : w.length = 1 ∨ 15 < w.length) : readLine d w = none := by
  have hnil : w ≠ [] := by
    intro h
    rw [h] at hw
    simp at hw
  unfold readLine
  rw [if_neg hnil]
  split
  · have : d[w.length - 2]? = none := by
      rw [List.getElem?_eq_none_iff, hd]
      omega
    rw [this]
  · rfl

theorem readLines_out_of_range : ∀ (source : List Str) (d : Dictionary), d.length = 14 →
    (∃ w ∈ source, w.length = 1 ∨ 15 < w.length) → readLines source d = none
  | [], _, _, h => by
    obtain ⟨w, hw, _⟩ := h
    simp at hw
  | v :: rest, d, hd, h => by
    unfold readLines
    cases hv : readLine d v with
    | none => rfl
    | some d1 =>
      simp only
      obtain ⟨w, hw, hbad⟩ := h
      rcases List.mem_cons.1 hw with h1 | h1
      · rw [← h1, readLine_out_of_range hd hbad] at hv
        exact absurd hv (by simp)
      · exact readLines_out_of_range rest d1 (by rw [readLine_length hv, hd]) ⟨w, h1, hbad⟩


/-! ## The claims on Lookup -/

/-- C1: on the index of a valid source, for a length `L` in 2..15 and a pattern of `L`
letters and wildcards with at least one letter, `Lookup` on the bucket of `L` returns
exactly the source words of length `L` that equal the pattern at every non-wildcard
position, in source order and with source multiplicity. -/
theorem Lookup_returns_matching_words (source : List Str) (L : Nat) (pattern : Str)
    (hsrc : ValidSource source) (h2 : 2 ≤ L) (h15 : L ≤ 15) (hp : ValidPattern L pattern)
    (hletter : ∃ c ∈ pattern, c ≠ wildcard) :
    ∃ dictionary top result, ReadDictionary source = some dictionary ∧
      dictionary[L - 2]? = some top ∧ Lookup top pattern = some result ∧
      result.map Word.original =
        source.filter (fun w => decide (w.length = L ∧ AgreesWith pattern w)) := by
  obtain ⟨d, hd1, hd2⟩ := ReadDictionary_Filed hsrc
  obtain ⟨top, ht, hres⟩ :=
    LookupWith_letter Order Order_length Order_pos hsrc hd2 h2 h15 hp.2 (le_of_eq hp.1) hletter
  refine ⟨d, top, _, hd1, ht, hres, ?_⟩
  rw [List.map_map]
  have : (Word.original ∘ entry) = id := by funext w; rfl
  rw [this, List.map_id]

/-- Instance: the source CAT, CAR, CAB, DOG with the pattern CA_. -/
theorem Lookup_returns_matching_words_witness :
    ValidSource scenario ∧ ValidPattern 3 ['C', 'A', '_'] ∧
    ∃ dictionary top result, ReadDictionary scenario = some dictionary ∧
      dictionary[3 - 2]? = some top ∧ Lookup top ['C', 'A', '_'] = some result ∧
      result.map Word.original =
        scenario.filter (fun w => decide (w.length = 3 ∧ AgreesWith ['C', 'A', '_'] w)) :=
  ⟨by decide, by decide,
    Lookup_returns_matching_words scenario 3 ['C', 'A', '_'] (by decide) (by decide)
      (by decide) (by decide) ⟨'C', by decide, by decide⟩⟩

/-- C3 (the code at the failing input): on the source CAT, CAR, CAB, DOG the query of
length 3 with the pattern of three wildcards gives CAT, CAR, CAB, the words of the bucket
of the letter A, and not DOG. -/
theorem Lookup_wildcards_scenario :
    answers scenario 3 ['_', '_', '_'] =
      some [['C', 'A', 'T'], ['C', 'A', 'R'], ['C', 'A', 'B']] := by
  decide

/-- C4 (the code at the failing input): on the source DOG alone, the pattern made from DOG
by replacing all three positions with wildcards gives no word at all. -/
theorem Lookup_all_positions_replaced :
    ValidSource [['D', 'O', 'G']] ∧ answers [['D', 'O', 'G']] 3 ['_', '_', '_'] = some [] := by
  decide

/-- C5: on the index of a valid source, for a length `L` in 2..15 and a pattern of `L`
letters and wildcards (wildcards only included), `Lookup` returns a list, every word of
which has the letter of the pattern at each position where the pattern has a letter,
and so contains every letter of the pattern. -/
theorem Lookup_sound (source : List Str) (L : Nat) (pattern : Str)
    (hsrc : ValidSource source) (h2 : 2 ≤ L) (h15 : L ≤ 15) (hp : ValidPattern L pattern) :
    ∃ dictionary top result, ReadDictionary source = some dictionary ∧
      dictionary[L - 2]? = some top ∧ Lookup top pattern = some result ∧
      ∀ e ∈ result,
        (∀ (i : Nat) (c : Char), pattern[i]? = some c → c ≠ wildcard → e.original[i]? = some c) ∧
        (∀ c ∈ pattern, c ≠ wildcard → c ∈ e.original) := by
  obtain ⟨d, hd1, hd2⟩ := ReadDictionary_Filed hsrc
  obtain ⟨top, X, ht, _, _, _, _, hres⟩ :=
    LookupWith_Filed Order Order_length hsrc hd2 h2 h15 hp.2 (le_of_eq hp.1)
  refine ⟨d, top, _, hd1, ht, hres, ?_⟩
  intro e he
  obtain ⟨w, hw, rfl⟩ := List.mem_map.1 he
  have ha : AgreesWith pattern w := (of_decide_eq_true (List.mem_filter.1 hw).2).2.2
  refine ⟨?_, fun c hc hne => AgreesWith_mem ha hc hne⟩
  intro i c hi hne
  have hlt : i < pattern.length := by
    by_contra hge
    rw [List.getElem?_eq_none (by omega)] at hi
    exact absurd hi (by simp)
  rcases ha i hlt with h | h
  · rw [hi] at h
    exact absurd (Option.some.inj h) hne
  · show w[i]? = some c
    rw [← h, hi]

/-- Instance: the source CAT, CAR, CAB, DOG with the pattern _A_, which prints CAT, CAR,
CAB. -/
theorem Lookup_sound_witness :
    ValidSource scenario ∧ ValidPattern 3 ['_', 'A', '_'] ∧
    answers scenario 3 ['_', 'A', '_'] =
      some [['C', 'A', 'T'], ['C', 'A', 'R'], ['C', 'A', 'B']] ∧
    ∃ dictionary top result, ReadDictionary scenario = some dictionary ∧
      dictionary[3 - 2]? = some top ∧ Lookup top ['_', 'A', '_'] = some result ∧
      ∀ e ∈ result,
        (∀ (i : Nat) (c : Char), ['_', 'A', '_'][i]? = some c → c ≠ wildcard →
          e.original[i]? = some c) ∧
        (∀ c ∈ ['_', 'A', '_'], c ≠ wildcard → c ∈ e.original) :=
  ⟨by decide, by decide, by decide,
    Lookup_sound scenario 3 ['_', 'A', '_'] (by decide) (by decide) (by decide) (by decide)⟩

/-- C6 (the code at the failing input): on the source CAT, CAR, CAB, DOG, with the empty
set of known letters (no known letter at all, or three wildcards) the list `matches1` is
the bucket of the letter A, which does not retain DOG. -/
theorem matches1_no_known_letter :
    (ReadDictionary scenario).bind (fun d => d[3 - 2]?.bind (fun top => matches1 top [])) =
      some [entry ['C', 'A', 'T'], entry ['C', 'A', 'R'], entry ['C', 'A', 'B']] ∧
    (ReadDictionary scenario).bind
        (fun d => d[3 - 2]?.bind (fun top => matches1 top ['_', '_', '_'])) =
      some [entry ['C', 'A', 'T'], entry ['C', 'A', 'R'], entry ['C', 'A', 'B']] := by
  decide

/-! ## The claims on ReadDictionary -/

/-- C10, refuted as stated: with the one-letter line A after CAT, and with a line of 16
letters after CAT, `ReadDictionary` produces no index, whereas it produces one once the
lines of length 1 or above 15 are removed. -/
theorem ReadDictionary_out_of_range_not_ignored :
    ReadDictionary [['C', 'A', 'T'], ['A']] = none ∧
    ReadDictionary [['C', 'A', 'T'], List.replicate 16 'A'] = none ∧
    ReadDictionary ([['C', 'A', 'T'], ['A']].filter
      (fun w => decide (¬ (w.length = 1 ∨ 15 < w.length)))) ≠ none ∧
    ReadDictionary ([['C', 'A', 'T'], List.replicate 16 'A'].filter
      (fun w => decide (¬ (w.length = 1 ∨ 15 < w.length)))) ≠ none := by
  decide

/-- C10, amended: a line of length 1 or of length above 15 is never indexed because it
stops the build: for every word source with such a line `ReadDictionary` ends in the
out-of-range failure of `at` and produces no index. -/
theorem ReadDictionary_out_of_range_fails (source : List Str)
    (h : ∃ w ∈ source, w.length = 1 ∨ 15 < w.length) : ReadDictionary source = none :=
  readLines_out_of_range source emptyDictionary (by decide) h

/-- Instance: the source CAT, A. -/
theorem ReadDictionary_out_of_range_fails_witness :
    (∃ w ∈ [['C', 'A', 'T'], ['A']], w.length = 1 ∨ 15 < w.length) ∧
    ReadDictionary [['C', 'A', 'T'], ['A']] = none :=
  ⟨⟨['A'], by decide, by decide⟩,
    ReadDictionary_out_of_range_fails [['C', 'A', 'T'], ['A']] ⟨['A'], by decide, by decide⟩⟩


/-! ## Lemmas on the query step -/

theorem wrapInt_of_small {x : Int} (h1 : -2147483648 ≤ x) (h2 : x < 2147483648) :
    wrapInt x = x := by
  unfold wrapInt
  omega

theorem bucketAt_in_range (d : Dictionary) {L : Nat} (h2 : 2 ≤ L) (h15 : L ≤ 15) :
    bucketAt d (L : Int) = d[L - 2]? := by
  have h : wrapInt ((L : Int) - 2) = ((L - 2 : Nat) : Int) := by
    rw [wrapInt_of_small (by omega) (by omega)]
    omega
  unfold bucketAt
  rw [h, if_pos (Int.ofNat_nonneg _), Int.toNat_ofNat]

theorem toupper_known {c : Char} (h : isUpper c ∨ c = wildcard) : toupper c = c := by
  have hlt : c.toNat ≤ 95 := by
    rcases h with h | h
    · exact le_trans h.2 (by decide)
    · rw [h]; decide
  unfold toupper Char.toUpper
  simp only
  rw [if_neg (by omega)]

theorem map_toupper_known {pattern : Str} (hp : KnownChars pattern) :
    pattern.map toupper = pattern := by
  have : ∀ c ∈ pattern, toupper c = id c := fun c hc => toupper_known (hp c hc)
  rw [List.map_congr_left this, List.map_id]

theorem readLines_length : ∀ (source : List Str) (d d1 : Dictionary),
    readLines source d = some d1 → d1.length = d.length
  | [], d, d1, h => by
    simp only [readLines] at h
    rw [← Option.some.inj h]
  | w :: rest, d, d1, h => by
    unfold readLines at h
    cases hw : readLine d w with
    | none => rw [hw] at h; exact absurd h (by simp)
    | some d2 =>
      rw [hw] at h
      rw [readLines_length rest d2 d1 h, readLine_length hw]

theorem ReadDictionary_length {source : List Str} {d : Dictionary}
    (h : ReadDictionary source = some d) : d.length = 14 := by
  rw [readLines_length source emptyDictionary d h]
  decide

/-! ## Lemmas on the positional filter -/

theorem copy_if_positions {source : List Str} {L : Nat} {pattern : Str} (p : Str → Bool)
    (hp : KnownChars pattern) (hshort : pattern.length ≤ L)
    (hl : ∀ w ∈ source, p w = true → w.length = L) :
    copy_if (matchesPositions pattern) ((source.filter p).map entry) =
      some ((source.filter (fun w => decide (AgreesWith pattern w) && p w)).map entry) := by
  rw [copy_if_filter (matchesPositions pattern)
    (fun e => decide (AgreesWith pattern e.original))]
  · congr 1
    apply filter_entry_filter
    intro w _
    rfl
  · intro e he
    obtain ⟨w, hw, rfl⟩ := List.mem_map.1 he
    have hw1 := List.mem_filter.1 hw
    unfold matchesPositions
    rw [cstr_pattern hp]
    exact matchesAt_agrees pattern w (by rw [hl w hw1.1 hw1.2]; exact hshort)

/-- C11: on the index of a word source with zero words (no line, or empty lines only), for
every length `L` in 2..15 and every pattern of `L` letters and wildcards, the bucket
of `L` is there, `Lookup` returns the empty list, and the query step reports that
there is no word. -/
theorem Lookup_empty_source (source : List Str) (L : Nat) (pattern : Str)
    (hempty : ∀ w ∈ source, w = []) (h2 : 2 ≤ L) (h15 : L ≤ 15)
    (hp : ValidPattern L pattern) :
    ∃ dictionary top, ReadDictionary source = some dictionary ∧
      dictionary[L - 2]? = some top ∧ Lookup top pattern = some [] ∧
      queryStep dictionary (L : Int) pattern = Outcome.noKnownWords := by
  have hsrc : ValidSource source := fun w hw => Or.inl (hempty w hw)
  obtain ⟨d, hd1, hd2⟩ := ReadDictionary_Filed hsrc
  obtain ⟨top, X, ht, _, _, _, _, hres⟩ :=
    LookupWith_Filed Order Order_length hsrc hd2 h2 h15 hp.2 (le_of_eq hp.1)
  have hnone : source.filter (fun w => decide (w.length = L ∧ X ∈ w ∧ AgreesWith pattern w))
      = [] := by
    rw [List.filter_eq_nil_iff]
    intro w hw
    rw [hempty w hw]
    simp
  rw [hnone] at hres
  have hlook : Lookup top pattern = some [] := hres
  refine ⟨d, top, hd1, ht, hlook, ?_⟩
  have hinv : invalidLength (L : Int) = false := by
    unfold invalidLength
    have : ¬ ((L : Int) ≤ 1) := by omega
    simp [this]
  unfold queryStep queryStepWith
  rw [hinv, bucketAt_in_range d h2 h15, ht, map_toupper_known hp.2]
  simp only [hlook]
  rfl

/-- Instance: the source of two empty lines, length 3, pattern CA_. -/
theorem Lookup_empty_source_witness :
    (∀ w ∈ ([[], []] : List Str), w = []) ∧ ValidPattern 3 ['C', 'A', '_'] ∧
    ∃ dictionary top, ReadDictionary [[], []] = some dictionary ∧
      dictionary[3 - 2]? = some top ∧ Lookup top ['C', 'A', '_'] = some [] ∧
      queryStep dictionary ((3 : Nat) : Int) ['C', 'A', '_'] = Outcome.noKnownWords :=
  ⟨by decide, by decide,
    Lookup_empty_source [[], []] 3 ['C', 'A', '_'] (by decide) (by decide) (by decide)
      (by decide)⟩

/-- C15: with any table of 26 ranks that are all at least 1 in the place of `Order`,
`Lookup` returns, on the index of a valid source, for a length `L` in 2..15 and a pattern
of `L` letters and wildcards with at least one letter, the same list as with `Order`. -/
theorem Lookup_rank_table_irrelevant (order : List Nat) (source : List Str) (L : Nat)
    (pattern : Str) (hlen : order.length = 26) (hpos : ∀ r ∈ order, 1 ≤ r)
    (hsrc : ValidSource source) (h2 : 2 ≤ L) (h15 : L ≤ 15) (hp : ValidPattern L pattern)
    (hletter : ∃ c ∈ pattern, c ≠ wildcard) :
    ∃ dictionary top result, ReadDictionary source = some dictionary ∧
      dictionary[L - 2]? = some top ∧ Lookup top pattern = some result ∧
      LookupWith order top pattern = some result := by
  obtain ⟨d, hd1, hd2⟩ := ReadDictionary_Filed hsrc
  obtain ⟨top, ht, hres⟩ :=
    LookupWith_letter Order Order_length Order_pos hsrc hd2 h2 h15 hp.2 (le_of_eq hp.1) hletter
  obtain ⟨top1, ht1, hres1⟩ :=
    LookupWith_letter order hlen hpos hsrc hd2 h2 h15 hp.2 (le_of_eq hp.1) hletter
  rw [ht] at ht1
  rw [← Option.some.inj ht1] at hres1
  exact ⟨d, top, _, hd1, ht, hres, hres1⟩

/-- Instance: the table that reverses the ranks of `Order`, on the source CAT, CAR, CAB,
DOG with the pattern CA_. -/
theorem Lookup_rank_table_irrelevant_witness :
    (Order.map (fun r => 27 - r)).length = 26 ∧ (∀ r ∈ Order.map (fun r => 27 - r), 1 ≤ r) ∧
    ValidSource scenario ∧ ValidPattern 3 ['C', 'A', '_'] ∧
    ∃ dictionary top result, ReadDictionary scenario = some dictionary ∧
      dictionary[3 - 2]? = some top ∧ Lookup top ['C', 'A', '_'] = some result ∧
      LookupWith (Order.map (fun r => 27 - r)) top ['C', 'A', '_'] = some result :=
  ⟨by decide, by decide, by decide, by decide,
    Lookup_rank_table_irrelevant (Order.map (fun r => 27 - r)) scenario 3 ['C', 'A', '_']
      (by decide) (by decide) (by decide) (by decide) (by decide) (by decide)
      ⟨'C', by decide, by decide⟩⟩

/-- C17: on the index of a valid source, for a length `L` in 2..15 and a pattern of at
most `L` letters and wildcards, `Lookup` (containment filter, then positional filter)
returns the list that the positional filter alone makes of the bucket that
`GetLowestFrequencyIndex` selects. -/
theorem Lookup_containment_filter_redundant (source : List Str) (L : Nat) (pattern : Str)
    (hsrc : ValidSource source) (h2 : 2 ≤ L) (h15 : L ≤ 15) (hp : KnownChars pattern)
    (hshort : pattern.length ≤ L) :
    ∃ dictionary top idx bucket result, ReadDictionary source = some dictionary ∧
      dictionary[L - 2]? = some top ∧
      GetLowestFrequencyIndex (stripPositions pattern) = some idx ∧
      top[idx]? = some bucket ∧
      Lookup top pattern = some result ∧
      copy_if (matchesPositions pattern) bucket = some result := by
  obtain ⟨d, hd1, hd2⟩ := ReadDictionary_Filed hsrc
  obtain ⟨top, X, ht, _, hidx, _, hb, hres⟩ :=
    LookupWith_Filed Order Order_length hsrc hd2 h2 h15 hp hshort
  refine ⟨d, top, _, _, _, hd1, ht, hidx, hb, hres, ?_⟩
  rw [copy_if_positions (fun w => decide (w.length = L ∧ X ∈ w)) hp hshort
    (fun w _ hw => (of_decide_eq_true hw).1)]
  congr 2
  apply List.filter_congr
  intro w _
  rw [Bool.eq_iff_iff, Bool.and_eq_true]
  simp only [decide_eq_true_eq]
  tauto

/-- Instance: the source CAT, CAR, CAB, DOG, length 3, pattern CA. -/
theorem Lookup_containment_filter_redundant_witness :
    ValidSource scenario ∧ KnownChars ['C', 'A'] ∧
    ∃ dictionary top idx bucket result, ReadDictionary scenario = some dictionary ∧
      dictionary[3 - 2]? = some top ∧
      GetLowestFrequencyIndex (stripPositions ['C', 'A']) = some idx ∧
      top[idx]? = some bucket ∧
      Lookup top ['C', 'A'] = some result ∧
      copy_if (matchesPositions ['C', 'A']) bucket = some result :=
  ⟨by decide, by decide,
    Lookup_containment_filter_redundant scenario 3 ['C', 'A'] (by decide) (by decide)
      (by decide) (by decide) (by decide)⟩


/-! ## The claims on the query step of main -/

theorem invalidLength_false (length : Int) : invalidLength length = false := by
  unfold invalidLength
  by_cases h : length ≤ 1
  · have : ¬ (length > 15) := by omega
    simp [this]
  · simp [h]

theorem report_ne_invalid (r : Option (List Word)) :
    report r ≠ Outcome.invalidNumberOfLetters := by
  cases r with
  | none => simp [report]
  | some results =>
    simp only [report]
    split <;> simp

/-- C12: for every `int` value `length` with `length <= 1` or `length > 15` (0 included),
the query step ends at `dictionary->at(length - 2)`, which throws: the outcome is the same
whatever function stands at the call of `Lookup` and whatever the pattern line is, so
`Lookup` is not invoked and no list of words is produced. -/
theorem queryStep_out_of_range_length (lookup : LengthBucket → Str → Option (List Word))
    (source : List Str) (dictionary : Dictionary) (length : Int) (input : Str)
    (hd : ReadDictionary source = some dictionary)
    (hint : -2147483648 ≤ length ∧ length ≤ 2147483647)
    (hout : length ≤ 1 ∨ 15 < length) :
    bucketAt dictionary length = none ∧
    queryStepWith lookup dictionary length input = Outcome.outOfRange := by
  have hlen := ReadDictionary_length hd
  have hb : bucketAt dictionary length = none := by
    unfold bucketAt
    split
    · rename_i h0
      rw [List.getElem?_eq_none_iff, hlen]
      unfold wrapInt at h0 ⊢
      omega
    · rfl
  refine ⟨hb, ?_⟩
  unfold queryStepWith
  rw [invalidLength_false, hb]
  rfl

/-- Instance: the index of CAT, CAR, CAB, DOG and the length 0 of an unreadable number. -/
theorem queryStep_out_of_range_length_witness :
    ReadDictionary scenario = some scenarioIndex ∧
    bucketAt scenarioIndex 0 = none ∧
    queryStepWith Lookup scenarioIndex 0 ['C', 'A', '_'] = Outcome.outOfRange :=
  ⟨by decide,
    queryStep_out_of_range_length Lookup scenario scenarioIndex 0 ['C', 'A', '_'] (by decide)
      (by decide) (by decide)⟩

/-- C13, refuted as stated: on the source CAT, CAR, CAB, DOG the query of length 3 with
the pattern CA of two characters is not rejected, it prints CAT, CAR, CAB. -/
theorem queryStep_short_pattern_scenario :
    (ReadDictionary scenario).map (fun d => queryStep d 3 ['C', 'A']) =
      some (Outcome.possibleAnswers [['C', 'A', 'T'], ['C', 'A', 'R'], ['C', 'A', 'B']]) := by
  decide

/-- C13, amended: the query step does not compare the number of characters of the pattern
with `L`: for a length `L` in 2..15 and any pattern of letters and wildcards it runs
`Lookup` on the bucket of `L` and reports what `Lookup` returns; for a pattern of fewer
than `L` characters with at least one letter that is the list of the source words of
length `L` that equal the pattern at each of its non-wildcard positions. -/
theorem queryStep_runs_Lookup (source : List Str) (L : Nat) (pattern : Str)
    (hsrc : ValidSource source) (h2 : 2 ≤ L) (h15 : L ≤ 15) (hp : KnownChars pattern) :
    ∃ dictionary top, ReadDictionary source = some dictionary ∧
      dictionary[L - 2]? = some top ∧
      queryStep dictionary (L : Int) pattern = report (Lookup top pattern) ∧
      (pattern.length < L → (∃ c ∈ pattern, c ≠ wildcard) →
        Lookup top pattern = some ((source.filter
          (fun w => decide (w.length = L ∧ AgreesWith pattern w))).map entry)) := by
  obtain ⟨d, hd1, hd2⟩ := ReadDictionary_Filed hsrc
  obtain ⟨top, ht, _, _⟩ := hd2.2 L h2 h15
  refine ⟨d, top, hd1, ht, ?_, ?_⟩
  · unfold queryStep queryStepWith
    rw [invalidLength_false, bucketAt_in_range d h2 h15, ht, map_toupper_known hp]
    rfl
  · intro hshort hletter
    obtain ⟨top1, ht1, hres⟩ := LookupWith_letter Order Order_length Order_pos hsrc hd2
      h2 h15 hp (le_of_lt hshort) hletter
    rw [ht] at ht1
    rw [Option.some.inj ht1]
    exact hres

/-- Instance: the source CAT, CAR, CAB, DOG, length 3, pattern CA. -/
theorem queryStep_runs_Lookup_witness :
    ValidSource scenario ∧ KnownChars ['C', 'A'] ∧
    ∃ dictionary top, ReadDictionary scenario = some dictionary ∧
      dictionary[3 - 2]? = some top ∧
      queryStep dictionary ((3 : Nat) : Int) ['C', 'A'] = report (Lookup top ['C', 'A']) ∧
      ((['C', 'A'] : Str).length < 3 → (∃ c ∈ ['C', 'A'], c ≠ wildcard) →
        Lookup top ['C', 'A'] = some ((scenario.filter
          (fun w => decide (w.length = 3 ∧ AgreesWith ['C', 'A'] w))).map entry)) :=
  ⟨by decide, by decide,
    queryStep_runs_Lookup scenario 3 ['C', 'A'] (by decide) (by decide) (by decide)
      (by decide)⟩

/-- C18: for every integer `length` the condition `length <= 1 && length > 15` of line 270
is false, and no pass of the loop of `main` ends in the branch that prints
"Invalid number of letters." and exits. -/
theorem invalid_length_branch_unreachable (length : Int) :
    invalidLength length = false ∧
    ∀ (lookup : LengthBucket → Str → Option (List Word)) (dictionary : Dictionary)
      (input : Str),
      queryStepWith lookup dictionary length input ≠ Outcome.invalidNumberOfLetters := by
  refine ⟨invalidLength_false length, ?_⟩
  intro lookup dictionary input
  unfold queryStepWith
  rw [invalidLength_false]
  cases bucketAt dictionary length with
  | none => simp
  | some ptr => exact report_ne_invalid _


/-! ## The claims on GetLowestFrequencyIndex -/

theorem lowestLoop_max (order : List Nat) (hlen : order.length = 26) :
    ∀ (cs : Str) (idx max : Nat), (∀ c ∈ cs, isUpper c) → max ≤ rank order idx →
    ∃ i, lowestLoop order cs idx max = some i ∧ max ≤ rank order i ∧
      ∀ c ∈ cs, rank order (c.toNat - 65) ≤ rank order i
  | [], idx, max, _, hmax => ⟨idx, rfl, hmax, fun c hc => by simp at hc⟩
  | c :: rest, idx, max, hup, hmax => by
    have hc : isUpper c := hup c (List.mem_cons_self _ _)
    have h1 := hc.1
    have h2 := hc.2
    have hrest : ∀ x ∈ rest, isUpper x := fun x hx => hup x (List.mem_cons_of_mem _ hx)
    have hlt : c.toNat - 65 < order.length := by omega
    have hget : order[c.toNat - 65]? = some (order[c.toNat - 65]) := List.getElem?_eq_getElem hlt
    have hrank : rank order (c.toNat - 65) = order[c.toNat - 65] := by
      unfold rank
      rw [hget]
      rfl
    have hmod : (c.toNat - 65) % 256 = c.toNat - 65 := by omega
    by_cases hlow : max < order[c.toNat - 65]
    · obtain ⟨i, hi1, hi2, hi3⟩ := lowestLoop_max order hlen rest (c.toNat - 65)
        (order[c.toNat - 65]) hrest (le_of_eq hrank.symm)
      refine ⟨i, ?_, by omega, ?_⟩
      · simp only [lowestLoop, h1, if_true, hget, hlow, hmod]
        exact hi1
      · intro x hx
        rcases List.mem_cons.1 hx with h | h
        · rw [h, hrank]; exact hi2
        · exact hi3 x h
    · obtain ⟨i, hi1, hi2, hi3⟩ := lowestLoop_max order hlen rest idx max hrest hmax
      refine ⟨i, ?_, hi2, ?_⟩
      · simp only [lowestLoop, h1, if_true, hget, hlow, if_false]
        exact hi1
      · intro x hx
        rcases List.mem_cons.1 hx with h | h
        · rw [h, hrank]; omega
        · exact hi3 x h

theorem GetLowestFrequencyIndexWith_max (order : List Nat) (hlen : order.length = 26)
    (hpos : ∀ r ∈ order, 1 ≤ r) (known : Str) (hne : known ≠ [])
    (hup : ∀ c ∈ known, isUpper c) :
    ∃ X ∈ known, GetLowestFrequencyIndexWith order known = some (X.toNat - 65) ∧
      ∀ c ∈ known, rank order (c.toNat - 65) ≤ rank order (X.toNat - 65) := by
  have hc : cstr known = known := cstr_eq_self (fun c hc => isUpper_ne_NUL (hup c hc))
  obtain ⟨X, hX, hrun⟩ := lowestLoop_letter order hlen hpos known 0 hne hup
  obtain ⟨i, hi1, _, hi3⟩ := lowestLoop_max order hlen known 0 0 hup (Nat.zero_le _)
  rw [hrun] at hi1
  rw [← Option.some.inj hi1] at hi3
  refine ⟨X, hX, ?_, hi3⟩
  unfold GetLowestFrequencyIndexWith
  rw [hc]
  exact hrun

theorem eraseIndexLetter_letter {X : Char} (hX : isUpper X) (ks : Str) :
    eraseIndexLetter (X.toNat - 65) ks = ks.filter (fun c => decide (c ≠ X)) := by
  unfold eraseIndexLetter
  apply List.filter_congr
  intro c _
  have h1 := hX.1
  have hsum : X.toNat - 65 + 65 = X.toNat := by omega
  rw [hsum, Bool.eq_iff_iff]
  simp only [decide_eq_true_eq]
  constructor
  · intro h hcX
    exact h (by rw [hcX])
  · intro h hn
    exact h (toNat_eq hn)

theorem Order_injective : ∀ i < 26, ∀ j < 26, rank Order i = rank Order j → i = j := by
  decide

/-- C14: for a non-empty string `known` of uppercase letters, `GetLowestFrequencyIndex`
returns the index, in 0..25, of a letter `X` of `known` whose rank in `Order` is at
least the rank of every letter of `known`; and when `known` is what is left of a pattern
without its wildcards, `matches1` of `Lookup` is the bucket of `X` filtered by the test
on `known` with every occurrence of `X` removed. -/
theorem GetLowestFrequencyIndex_highest_rank (known : Str) (hne : known ≠ [])
    (hup : ∀ c ∈ known, isUpper c) :
    ∃ X ∈ known, GetLowestFrequencyIndex known = some (X.toNat - 65) ∧
      X.toNat - 65 < 26 ∧
      (∀ c ∈ known, rank Order (c.toNat - 65) ≤ rank Order (X.toNat - 65)) ∧
      X ∉ known.filter (fun c => decide (c ≠ X)) ∧
      ∀ (top : LengthBucket) (pattern : Str), stripPositions pattern = known →
        matches1 top pattern =
          (top[X.toNat - 65]?).map (fun bucket =>
            bucket.filter (containsAll (known.filter (fun c => decide (c ≠ X))))) := by
  obtain ⟨X, hX, hidx, hmax⟩ :=
    GetLowestFrequencyIndexWith_max Order Order_length Order_pos known hne hup
  have hXup := hup X hX
  refine ⟨X, hX, hidx, ?_, hmax, ?_, ?_⟩
  · have h1 := hXup.1
    have h2 := hXup.2
    omega
  · intro h
    have := (List.mem_filter.1 h).2
    simp at this
  · intro top pattern hks
    unfold matches1 matches1With
    rw [hks]
    simp only [hidx]
    rw [eraseIndexLetter_letter hXup]
    cases top[X.toNat - 65]? <;> rfl

/-- Instance: the known letters C, A of the pattern CA_; the letter selected is C. -/
theorem GetLowestFrequencyIndex_highest_rank_witness :
    GetLowestFrequencyIndex ['C', 'A'] = some 2 ∧ rank Order 2 = 12 ∧ rank Order 0 = 3 ∧
    ∃ X ∈ ['C', 'A'], GetLowestFrequencyIndex ['C', 'A'] = some (X.toNat - 65) ∧
      X.toNat - 65 < 26 ∧
      (∀ c ∈ ['C', 'A'], rank Order (c.toNat - 65) ≤ rank Order (X.toNat - 65)) ∧
      X ∉ ['C', 'A'].filter (fun c => decide (c ≠ X)) ∧
      ∀ (top : LengthBucket) (pattern : Str), stripPositions pattern = ['C', 'A'] →
        matches1 top pattern =
          (top[X.toNat - 65]?).map (fun bucket =>
            bucket.filter (containsAll (['C', 'A'].filter (fun c => decide (c ≠ X))))) :=
  ⟨by decide, by decide, by decide,
    GetLowestFrequencyIndex_highest_rank ['C', 'A'] (by decide) (by decide)⟩

/-- C19: the table `Order` has 26 entries, all different, each in 1..26, so it is a
bijection from the letters onto 1..26; and two non-empty strings of uppercase letters in
which the same letters occur give the same index in `GetLowestFrequencyIndex`. -/
theorem GetLowestFrequencyIndex_set_of_letters (k1 k2 : Str) (hne : k1 ≠ [])
    (hup : ∀ c ∈ k1, isUpper c) (hsame : ∀ c, c ∈ k1 ↔ c ∈ k2) :
    (Order.length = 26 ∧ Order.Nodup ∧ (∀ r ∈ Order, 1 ≤ r ∧ r ≤ 26) ∧
      ∀ r, 1 ≤ r → r ≤ 26 → r ∈ Order) ∧
    ∃ i, GetLowestFrequencyIndex k1 = some i ∧ GetLowestFrequencyIndex k2 = some i := by
  refine ⟨⟨by decide, by decide, by decide, by decide⟩, ?_⟩
  have hup2 : ∀ c ∈ k2, isUpper c := fun c hc => hup c ((hsame c).2 hc)
  have hne2 : k2 ≠ [] := by
    obtain ⟨c, hc⟩ := List.exists_mem_of_ne_nil k1 hne
    exact List.ne_nil_of_mem ((hsame c).1 hc)
  obtain ⟨X1, hX1, hidx1, hmax1⟩ :=
    GetLowestFrequencyIndexWith_max Order Order_length Order_pos k1 hne hup
  obtain ⟨X2, hX2, hidx2, hmax2⟩ :=
    GetLowestFrequencyIndexWith_max Order Order_length Order_pos k2 hne2 hup2
  have hle1 := hmax1 X2 ((hsame X2).2 hX2)
  have hle2 := hmax2 X1 ((hsame X1).1 hX1)
  have hu1 := hup X1 hX1
  have hu2 := hup2 X2 hX2
  have heq : X1.toNat - 65 = X2.toNat - 65 :=
    Order_injective _ (by have := hu1.1; have := hu1.2; omega) _
      (by have := hu2.1; have := hu2.2; omega) (le_antisymm hle2 hle1)
  refine ⟨X1.toNat - 65, hidx1, ?_⟩
  rw [heq]
  exact hidx2

/-- Instance: the strings CAB and BACCA: the same letters, another order, repetitions. -/
theorem GetLowestFrequencyIndex_set_of_letters_witness :
    (∀ c, c ∈ ['C', 'A', 'B'] ↔ c ∈ ['B', 'A', 'C', 'C', 'A']) ∧
    (Order.length = 26 ∧ Order.Nodup ∧ (∀ r ∈ Order, 1 ≤ r ∧ r ≤ 26) ∧
      ∀ r, 1 ≤ r → r ≤ 26 → r ∈ Order) ∧
    ∃ i, GetLowestFrequencyIndex ['C', 'A', 'B'] = some i ∧
      GetLowestFrequencyIndex ['B', 'A', 'C', 'C', 'A'] = some i :=
  ⟨by intro c; simp only [List.mem_cons, List.mem_singleton, List.not_mem_nil]; tauto,
    GetLowestFrequencyIndex_set_of_letters ['C', 'A', 'B'] ['B', 'A', 'C', 'C', 'A']
      (by decide) (by decide)
      (by intro c; simp only [List.mem_cons, List.mem_singleton, List.not_mem_nil]; tauto)⟩

end CrosswordSolver
